import Mathlib

/-!
Shallow embedding of the banking-system ledger engine
(source: src/banking_system_impl.py, class BankingSystemImpl).

Python dictionaries are modelled as association lists kept in insertion
order: assignment to an existing key updates the value in place, assignment
to a fresh key appends at the end, and deletion removes the (unique) entry.
Python list values are modelled as Lean lists.  Python integers are Int,
Python strings are String, and Python floor division is Int.fdiv.
-/

namespace Banking

/-- One ledger tuple (timestamp, transaction_type, amount, balance, account_id)
as stored in the accounts dictionary. -/
structure Entry where
  ts : Int
  kind : String
  amount : Int
  bal : Int
  origin : String
deriving DecidableEq, Inhabited

/-- One payments-dictionary value [account_id, cashback_timestamp, cashback, status]. -/
structure Payment where
  account : String
  maturity : Int
  cashback : Int
  status : Bool
deriving DecidableEq, Inhabited

/-- The mutable state of BankingSystemImpl: the accounts, payments and
merged_accounts dictionaries, each in insertion order. -/
structure State where
  accounts : List (String × List Entry)
  payments : List (String × Payment)
  merged_accounts : List (String × String)
deriving DecidableEq, Inhabited

/-- The state produced by BankingSystemImpl.__init__ : three empty dictionaries. -/
def initState : State := ⟨[], [], []⟩

/-- Dictionary read d[k], returning the value at the key if present. -/
def alookup {α : Type} (m : List (String × α)) (k : String) : Option α :=
  match m with
  | [] => none
  | (k1, v) :: rest => if k1 = k then some v else alookup rest k

/-- Dictionary write d[k] = v : update in place if the key exists, else append. -/
def aset {α : Type} (m : List (String × α)) (k : String) (v : α) : List (String × α) :=
  match m with
  | [] => [(k, v)]
  | (k1, v1) :: rest => if k1 = k then (k, v) :: rest else (k1, v1) :: aset rest k v

/-- Dictionary deletion del d[k] : removes the entry for the key. -/
def adel {α : Type} (m : List (String × α)) (k : String) : List (String × α) :=
  match m with
  | [] => []
  | (k1, v1) :: rest => if k1 = k then rest else (k1, v1) :: adel rest k

/-- history[-1][3] : balance field of the last stored tuple.  The Python code
never reads this on an empty history (every account is seeded at creation);
the model returns 0 there. -/
def lastBal (h : List Entry) : Int :=
  match h.getLast? with
  | some e => e.bal
  | none => 0

/-- Code-point comparison of character lists, as Python compares strings. -/
def charsLtB : List Char → List Char → Bool
  | _, [] => false
  | [], _ :: _ => true
  | a :: as, b :: bs => if a < b then true else if b < a then false else charsLtB as bs

/-- Python string comparison s1 < s2. -/
def strLtB (a b : String) : Bool := charsLtB a.data b.data

/-- Python tuple comparison on ledger tuples
(timestamp, transaction_type, amount, balance, account_id), lexicographic. -/
def entryLtB (x y : Entry) : Bool :=
  if x.ts < y.ts then true else if y.ts < x.ts then false
  else if strLtB x.kind y.kind then true else if strLtB y.kind x.kind then false
  else if x.amount < y.amount then true else if y.amount < x.amount then false
  else if x.bal < y.bal then true else if y.bal < x.bal then false
  else strLtB x.origin y.origin

/-- Insert an entry into a list, after every element strictly below it. -/
def insEntry (x : Entry) : List Entry → List Entry
  | [] => [x]
  | y :: ys => if entryLtB y x then y :: insEntry x ys else x :: y :: ys

/-- history.sort() : Python sorts the tuples lexicographically.  Because
entryLtB is a total lexicographic order in which incomparable tuples are
equal as values, any sorted permutation is the same list, so insertion sort
produces exactly the Python result. -/
def sortEntries : List Entry → List Entry
  | [] => []
  | x :: xs => insEntry x (sortEntries xs)

/-- Insert a string into a list, after every element strictly below it. -/
def insStr (x : String) : List String → List String
  | [] => [x]
  | y :: ys => if strLtB y x then y :: insStr x ys else x :: y :: ys

/-- sorted(keys) : ascending code-point order of the payment-id strings. -/
def sortStrs : List String → List String
  | [] => []
  | x :: xs => insStr x (sortStrs xs)

/-- create_account (banking_system_impl.py lines 31-56). -/
def create_account (s : State) (timestamp : Int) (account_id : String) : Bool × State :=
  match alookup s.accounts account_id with
  | some _ => (false, s)
  | none =>
    (true, { s with accounts := (s.accounts ++
      [(account_id, [⟨timestamp, "Account Creation", 0, 0, account_id⟩])]) })

/-- The body of one iteration of the process_cashback loop for a due key
(banking_system_impl.py lines 256-268): look the payment up, credit its
beneficiary if it is still in progress, and mark it completed.  The Python
code would raise a KeyError if the beneficiary account were absent; that
situation is unreachable, and the model then leaves the accounts unchanged. -/
def processKey (s : State) (key : String) : State :=
  match alookup s.payments key with
  | none => s
  | some p =>
    if p.status then
      { s with payments := aset s.payments key p }
    else
      let accounts1 :=
        match alookup s.accounts p.account with
        | none => s.accounts
        | some h =>
          aset s.accounts p.account
            (h ++ [⟨p.maturity, "Cashback", p.cashback, lastBal h + p.cashback, p.account⟩])
      { s with accounts := accounts1,
               payments := (aset s.payments key { p with status := true }) }

/-- process_cashback (banking_system_impl.py lines 232-268): collect the keys
of the payments whose cashback timestamp is due, sort them as strings, and
run the loop body on each in that order. -/
def process_cashback (s : State) (timestamp : Int) : State :=
  let due := sortStrs ((s.payments.filter (fun kv => kv.2.maturity ≤ timestamp)).map Prod.fst)
  due.foldl processKey s

/-- deposit (banking_system_impl.py lines 58-92). -/
def deposit (s : State) (timestamp : Int) (account_id : String) (amount : Int) :
    Option Int × State :=
  let s1 := process_cashback s timestamp
  match alookup s1.accounts account_id with
  | none => (none, s1)
  | some h =>
    let new_balance := lastBal h + amount
    (some new_balance,
      { s1 with accounts := (aset s1.accounts account_id
          (h ++ [⟨timestamp, "Deposit", amount, new_balance, account_id⟩])) })

/-- transfer (banking_system_impl.py lines 94-143). -/
def transfer (s : State) (timestamp : Int) (source_account_id target_account_id : String)
    (amount : Int) : Option Int × State :=
  let s1 := process_cashback s timestamp
  match alookup s1.accounts source_account_id, alookup s1.accounts target_account_id with
  | some hs, some ht =>
    if source_account_id = target_account_id then (none, s1)
    else
      let src_balance := lastBal hs
      if src_balance < amount then (none, s1)
      else
        let new_src_balance := src_balance - amount
        let new_tgt_balance := lastBal ht + amount
        let acc1 := aset s1.accounts source_account_id
          (hs ++ [⟨timestamp, "Transfer Out", amount, new_src_balance, source_account_id⟩])
        let acc2 := aset acc1 target_account_id
          (ht ++ [⟨timestamp, "Transfer In", amount, new_tgt_balance, target_account_id⟩])
        (some new_src_balance, { s1 with accounts := acc2 })
  | _, _ => (none, s1)

/-- Sum of the Transfer Out and Pay amounts over one transaction history
(the inner loop of top_spenders, banking_system_impl.py lines 171-176). -/
def outgoingTotal (h : List Entry) : Int :=
  h.foldl (fun acc e => if e.kind = "Transfer Out" ∨ e.kind = "Pay" then acc + e.amount else acc) 0

/-- Python comparison of the sort keys (-total, account_id) used by top_spenders. -/
def spenderLtB (x y : String × Int) : Bool :=
  if y.2 < x.2 then true else if x.2 < y.2 then false else strLtB x.1 y.1

/-- Insert a (account_id, total) pair after every pair strictly below it. -/
def insSpender (x : String × Int) : List (String × Int) → List (String × Int)
  | [] => [x]
  | y :: ys => if spenderLtB y x then y :: insSpender x ys else x :: y :: ys

/-- sorted(outgoing_totals.items(), key (-total, account_id)). -/
def sortSpenders : List (String × Int) → List (String × Int)
  | [] => []
  | x :: xs => insSpender x (sortSpenders xs)

/-- top_spenders (banking_system_impl.py lines 147-182).  It reads the state
and returns the formatted ranking without mutating anything. -/
def top_spenders (s : State) (timestamp : Int) (n : Nat) : List String :=
  let totals := s.accounts.map (fun kv => (kv.1, outgoingTotal kv.2))
  let sorted := sortSpenders totals
  (sorted.take n).map (fun kv => kv.1 ++ "(" ++ toString kv.2 ++ ")")

/-- pay (banking_system_impl.py lines 186-230). -/
def pay (s : State) (timestamp : Int) (account_id : String) (amount : Int) :
    Option String × State :=
  let s1 := process_cashback s timestamp
  match alookup s1.accounts account_id with
  | none => (none, s1)
  | some h =>
    let balance := lastBal h
    if balance < amount then (none, s1)
    else
      let new_balance := balance - amount
      let accounts1 := aset s1.accounts account_id
        (h ++ [⟨timestamp, "Pay", amount, new_balance, account_id⟩])
      let cashback := Int.fdiv (amount * 2) 100
      let payment_id := "payment" ++ Nat.repr (s1.payments.length + 1)
      (some payment_id,
        { s1 with accounts := accounts1,
                  payments := (aset s1.payments payment_id
                    ⟨account_id, timestamp + 86400000, cashback, false⟩) })

/-- get_payment_status (banking_system_impl.py lines 270-311). -/
def get_payment_status (s : State) (timestamp : Int) (account_id : String)
    (payment : String) : Option String × State :=
  let s1 := process_cashback s timestamp
  match alookup s1.accounts account_id with
  | none => (none, s1)
  | some _ =>
    match alookup s1.payments payment with
    | none => (none, s1)
    | some p =>
      if account_id ≠ p.account then (none, s1)
      else if p.status then (some "CASHBACK_RECEIVED", s1)
      else (some "IN_PROGRESS", s1)

/-- merge_accounts (banking_system_impl.py lines 315-365). -/
def merge_accounts (s : State) (timestamp : Int) (account_id_1 account_id_2 : String) :
    Bool × State :=
  match alookup s.accounts account_id_1, alookup s.accounts account_id_2 with
  | some h1, some h2 =>
    if account_id_1 = account_id_2 then (false, s)
    else
      let merged := aset s.merged_accounts account_id_2 account_id_1
      let payments1 := s.payments.map
        (fun kv => if kv.2.account = account_id_2 then (kv.1, { kv.2 with account := account_id_1 }) else kv)
      let acc_2_bal := lastBal h2
      let acc_1_bal := lastBal h1
      let transaction_type := "Merged Account with " ++ account_id_2
      let new_bal := acc_1_bal + acc_2_bal
      let combined := sortEntries (h1 ++ h2)
      let accounts1 := aset s.accounts account_id_1 combined
      let accounts2 := adel accounts1 account_id_2
      let accounts3 := aset accounts2 account_id_1
        (combined ++ [⟨timestamp, transaction_type, acc_2_bal, new_bal, account_id_1⟩])
      (true, ⟨accounts3, payments1, merged⟩)
  | _, _ => (false, s)

/-- One step of the Python bisect_right binary search: lo and hi bracket the
search, and the fuel bounds the number of iterations. -/
def bisectLoop (a : List Int) (x : Int) : Nat → Nat → Nat → Nat
  | 0, lo, _ => lo
  | fuel + 1, lo, hi =>
    if lo < hi then
      let mid := (lo + hi) / 2
      if x < a.getD mid 0 then bisectLoop a x fuel lo mid
      else bisectLoop a x fuel (mid + 1) hi
    else lo

/-- bisect.bisect_right(a, x) as called by balance_query.  The interval
shrinks at every iteration, so length + 1 units of fuel always suffice. -/
def bisect_right (a : List Int) (x : Int) : Nat :=
  bisectLoop a x (a.length + 1) 0 a.length

/-- balance_query (banking_system_impl.py lines 367-412).  The timestamp
parameter is accepted and unused, exactly as in the source. -/
def balance_query (s : State) (timestamp : Int) (account_id : String) (time_at : Int)
    (target_account : String) : Option Int :=
  match alookup s.accounts account_id with
  | none => none
  | some account_history =>
    if account_history.isEmpty then none
    else
      let original := account_history.filter (fun e => e.origin = target_account)
      let tss := original.map (fun e => e.ts)
      let i := bisect_right tss time_at
      if i = 0 then none
      else some ((original.getD (i - 1) default).bal)

/-- The while loop of get_balance resolving a retired id through the
merged_accounts mapping.  It returns the pair (last retired id in the chain,
surviving id); running out of fuel or hitting a missing key models the
KeyError and nontermination the Python loop can produce on malformed maps. -/
def resolveChain (s : State) (account_id new_account_id : String) :
    Nat → Option (String × String)
  | 0 => none
  | fuel + 1 =>
    if (alookup s.accounts new_account_id).isSome then some (account_id, new_account_id)
    else
      match alookup s.merged_accounts new_account_id with
      | none => none
      | some nxt => resolveChain s new_account_id nxt fuel

/-- get_balance (banking_system_impl.py lines 414-511).  Note that the
existing-account branch sorts the stored history in place before querying,
so the call returns an updated state. -/
def get_balance (s : State) (timestamp : Int) (account_id : String) (time_at : Int) :
    Option Int × State :=
  let s1 := process_cashback s timestamp
  let target_account_id := account_id
  match alookup s1.accounts account_id with
  | none =>
    match alookup s1.merged_accounts account_id with
    | none => (none, s1)
    | some nid =>
      match resolveChain s1 account_id nid (s1.merged_accounts.length + 1) with
      | none => (none, s1)
      | some (aid, new_account_id) =>
        let new_history := (alookup s1.accounts new_account_id).getD []
        let merges := new_history.filter (fun e => e.kind = "Merged Account with " ++ aid)
        match merges.head? with
        | none => (none, s1)
        | some m =>
          if time_at < m.ts then
            (balance_query s1 timestamp new_account_id time_at target_account_id, s1)
          else (none, s1)
  | some h =>
    let sorted := sortEntries h
    let s2 := { s1 with accounts := aset s1.accounts account_id sorted }
    match sorted.head? with
    | none => (none, s2)
    | some e0 =>
      if time_at < e0.ts then (none, s2)
      else (balance_query s2 timestamp account_id time_at account_id, s2)

/-- The public interface calls, each carrying the arguments the Python
methods take. -/
inductive Op where
  | createAccount (ts : Int) (id : String)
  | depositOp (ts : Int) (id : String) (amount : Int)
  | transferOp (ts : Int) (src tgt : String) (amount : Int)
  | topSpendersOp (ts : Int) (n : Nat)
  | payOp (ts : Int) (id : String) (amount : Int)
  | paymentStatusOp (ts : Int) (id pid : String)
  | mergeOp (ts : Int) (a1 a2 : String)
  | balanceOp (ts : Int) (id : String) (timeAt : Int)
deriving DecidableEq

/-- State transition of one public call. -/
def applyOp (s : State) : Op → State
  | .createAccount ts id => (create_account s ts id).2
  | .depositOp ts id amount => (deposit s ts id amount).2
  | .transferOp ts src tgt amount => (transfer s ts src tgt amount).2
  | .topSpendersOp _ _ => s
  | .payOp ts id amount => (pay s ts id amount).2
  | .paymentStatusOp ts id pid => (get_payment_status s ts id pid).2
  | .mergeOp ts a1 a2 => (merge_accounts s ts a1 a2).2
  | .balanceOp ts id timeAt => (get_balance s ts id timeAt).2

/-- Whether a call is a pay call. -/
def Op.isPay : Op → Bool
  | .payOp _ _ _ => true
  | _ => false

/-- The ordinal a call reports: a successful pay returns
"payment" followed by one more than the number of stored payments. -/
def payOrd (s : State) : Op → Option Nat
  | .payOp ts id amount =>
    match (pay s ts id amount).1 with
    | some _ => some (s.payments.length + 1)
    | none => none
  | _ => none

/-- Run a sequence of calls, collecting the ordinal of every successful pay. -/
def runPays : State → List Op → State × List Nat
  | s, [] => (s, [])
  | s, op :: ops =>
    let rest := runPays (applyOp s op) ops
    match payOrd s op with
    | some o => (rest.1, o :: rest.2)
    | none => rest

/-- Sum of the lengths of all stored histories. -/
def totalEntries (s : State) : Nat :=
  (s.accounts.map (fun kv => kv.2.length)).sum

/-- Number of payments marked completed. -/
def trueCount (s : State) : Nat :=
  s.payments.countP (fun kv => kv.2.status)

/-- Sum of the current balances of all existing accounts, the code reading
each balance from the last stored tuple. -/
def totalBalance (s : State) : Int :=
  (s.accounts.map (fun kv => lastBal kv.2)).sum

end Banking

namespace Banking

/-! ### Association-list lemmas -/

theorem alookup_aset_self {α : Type} (m : List (String × α)) (k : String) (v : α) :
    alookup (aset m k v) k = some v := by
  induction m with
  | nil => simp [aset, alookup]
  | cons kv rest ih =>
    by_cases h : kv.1 = k
    · simp [aset, alookup, h]
    · simp [aset, alookup, h, ih]

theorem alookup_aset_ne {α : Type} (m : List (String × α)) (k k2 : String) (v : α)
    (h : k ≠ k2) : alookup (aset m k v) k2 = alookup m k2 := by
  induction m with
  | nil => simp [aset, alookup, h]
  | cons kv rest ih =>
    by_cases hk : kv.1 = k
    · simp [aset, alookup, hk, h, ih]
    · by_cases hk2 : kv.1 = k2
      · simp [aset, alookup, hk, hk2, Ne.symm h]
      · simp [aset, alookup, hk, hk2, ih]

theorem aset_self {α : Type} (m : List (String × α)) (k : String) (v : α)
    (h : alookup m k = some v) : aset m k v = m := by
  induction m with
  | nil => simp [alookup] at h
  | cons kv rest ih =>
    obtain ⟨k1, v1⟩ := kv
    by_cases hk : k1 = k
    · simp [alookup, hk] at h
      simp [aset, hk, h]
    · simp [alookup, hk] at h
      simp [aset, hk, ih h]

theorem aset_append_of_none {α : Type} (m : List (String × α)) (k : String) (v : α)
    (h : alookup m k = none) : aset m k v = m ++ [(k, v)] := by
  induction m with
  | nil => simp [aset]
  | cons kv rest ih =>
    by_cases hk : kv.1 = k
    · simp [alookup, hk] at h
    · simp [alookup, hk] at h
      simp [aset, hk, ih h]

theorem aset_map_fst {α : Type} (m : List (String × α)) (k : String) (v w : α)
    (h : alookup m k = some w) : (aset m k v).map Prod.fst = m.map Prod.fst := by
  induction m with
  | nil => simp [alookup] at h
  | cons kv rest ih =>
    by_cases hk : kv.1 = k
    · simp [aset, hk]
    · simp [alookup, hk] at h
      simp [aset, hk, ih h]

theorem aset_length_of_lookup {α : Type} (m : List (String × α)) (k : String) (v w : α)
    (h : alookup m k = some w) : (aset m k v).length = m.length := by
  induction m with
  | nil => simp [alookup] at h
  | cons kv rest ih =>
    by_cases hk : kv.1 = k
    · simp [aset, hk]
    · simp [alookup, hk] at h
      simp [aset, hk, ih h]

theorem alookup_mem {α : Type} (m : List (String × α)) (k : String) (v : α)
    (h : alookup m k = some v) : (k, v) ∈ m := by
  induction m with
  | nil => simp [alookup] at h
  | cons kv rest ih =>
    obtain ⟨k1, v1⟩ := kv
    by_cases hk : k1 = k
    · simp [alookup, hk] at h
      simp [hk, h]
    · simp [alookup, hk] at h
      exact List.mem_cons_of_mem _ (ih h)

theorem mem_aset {α : Type} (m : List (String × α)) (k : String) (v : α) (kv : String × α)
    (h : kv ∈ aset m k v) : kv = (k, v) ∨ kv ∈ m := by
  induction m with
  | nil => simpa [aset] using h
  | cons kv1 rest ih =>
    by_cases hk : kv1.1 = k
    · simp [aset, hk] at h
      rcases h with h | h
      · exact Or.inl h
      · exact Or.inr (List.mem_cons_of_mem _ h)
    · simp [aset, hk] at h
      rcases h with h | h
      · exact Or.inr (by simp [h])
      · rcases ih h with h2 | h2
        · exact Or.inl h2
        · exact Or.inr (List.mem_cons_of_mem _ h2)

theorem alookup_aset_isSome {α : Type} (m : List (String × α)) (k k2 : String) (v : α)
    (h : (alookup m k2).isSome) : (alookup (aset m k v) k2).isSome := by
  by_cases hk : k = k2
  · rw [hk, alookup_aset_self]
    rfl
  · rwa [alookup_aset_ne _ _ _ _ hk]

theorem lastBal_concat (h : List Entry) (e : Entry) : lastBal (h ++ [e]) = e.bal := by
  simp [lastBal]

end Banking

namespace Banking

/-! ### Concrete runs used as test vectors -/

/-- A concrete run: A1 and A2 are created and funded, then A2 pays 100 at
time 5, which schedules payment1 with cashback 2 maturing at 86400005. -/
def samplePayState : State :=
  (pay (deposit (deposit (create_account
    (create_account initState 1 "A1").2 2 "A2").2 3 "A1" 500).2 4 "A2" 300).2 5 "A2" 100).2

/-- A concrete run: A1 and A2 are created, A1 deposits 10 and A2 deposits 20,
then A2 is merged into A1 at time 10. -/
def sampleMergeState : State :=
  (merge_accounts (deposit (deposit (create_account
    (create_account initState 1 "A1").2 2 "A2").2 3 "A1" 10).2 4 "A2" 20).2 10 "A1" "A2").2

/-- A concrete run with a timestamp tie: A1 and A2 each receive a deposit at
time 5, so the two histories interleave at equal timestamps. -/
def sampleTieState : State :=
  (deposit (deposit (create_account
    (create_account initState 1 "A1").2 2 "A2").2 5 "A1" 100).2 5 "A2" 40).2

/-! ### Claim C4: create_account on an id retired by a merge -/

/-- Claim C4 counterexample: after A2 is retired as the secondary of a
successful merge (the merged_accounts mapping records it), create_account
with the id A2 returns true, not false as the claim states. -/
theorem claim4_counterexample :
    alookup sampleMergeState.merged_accounts "A2" = some "A1" ∧
    alookup sampleMergeState.accounts "A2" = none ∧
    (create_account sampleMergeState 20 "A2").1 = true := by
  refine ⟨by decide, by decide, by decide⟩

/-- Claim C4 amended: create_account succeeds for any id that is not a key
of the live accounts dictionary, even an id retired by a merge, because the
merge deletes the secondary from the accounts dictionary and create_account
consults only that dictionary.  The call inserts the seed entry and returns
true. -/
theorem claim4_amended (s : State) (ts : Int) (a : String)
    (h : alookup s.accounts a = none) :
    (create_account s ts a).1 = true ∧
    (create_account s ts a).2.accounts
      = s.accounts ++ [(a, [⟨ts, "Account Creation", 0, 0, a⟩])] := by
  simp [create_account, h]

/-- Witness for claim C4: the amended theorem applied to the concrete merged
state, where the retired id A2 is re-created successfully. -/
theorem claim4_witness :
    alookup sampleMergeState.accounts "A2" = none ∧
    (create_account sampleMergeState 20 "A2").1 = true :=
  ⟨by decide, (claim4_amended sampleMergeState 20 "A2" (by decide)).1⟩

/-! ### Claim C8: pay at the balance boundary -/

/-- Claim C8: for any state and timestamp, pay of exactly the current
balance (the balance after the materialization that pay itself performs
first) succeeds and leaves the balance 0, while pay of one more than the
balance returns the rejection sentinel and leaves the account balance, and
indeed the whole state reached by the call, unchanged. -/
theorem claim8_pay_boundary (s : State) (ts : Int) (acc : String) (h : List Entry)
    (hl : alookup (process_cashback s ts).accounts acc = some h) :
    ((pay s ts acc (lastBal h)).1.isSome = true ∧
     lastBal ((alookup (pay s ts acc (lastBal h)).2.accounts acc).getD []) = 0) ∧
    ((pay s ts acc (lastBal h + 1)).1 = none ∧
     (pay s ts acc (lastBal h + 1)).2 = process_cashback s ts ∧
     lastBal ((alookup (pay s ts acc (lastBal h + 1)).2.accounts acc).getD []) = lastBal h) := by
  constructor
  · simp only [pay, hl, lt_irrefl, if_false]
    constructor
    · rfl
    · rw [alookup_aset_self]
      simp [lastBal_concat]
  · have hlt : lastBal h < lastBal h + 1 := by omega
    simp only [pay, hl, hlt, if_true]
    refine ⟨trivial, trivial, ?_⟩
    simp

/-- Witness for claim C8: applied to the concrete funded state, where A2
holds 200 after materialization at time 6. -/
theorem claim8_witness :
    (pay samplePayState 6 "A2" 201).1 = none ∧
    (pay samplePayState 6 "A2" 200).1.isSome = true := by
  have hl : alookup (process_cashback samplePayState 6).accounts "A2"
      = some [⟨2, "Account Creation", 0, 0, "A2"⟩, ⟨4, "Deposit", 300, 300, "A2"⟩,
              ⟨5, "Pay", 100, 200, "A2"⟩] := by decide
  have hmain := claim8_pay_boundary samplePayState 6 "A2" _ hl
  have hbal : lastBal [⟨2, "Account Creation", 0, 0, "A2"⟩, ⟨4, "Deposit", 300, 300, "A2"⟩,
      (⟨5, "Pay", 100, 200, "A2"⟩ : Entry)] = 200 := by decide
  constructor
  · have := hmain.2.1
    rwa [hbal] at this
  · have := hmain.1.1
    rwa [hbal] at this

end Banking

namespace Banking

/-! ### Claim C3: shape of the merged history -/

/-- Insert an entry after every element whose timestamp is at most its own,
so that equal timestamps keep their existing relative order. -/
def insByTs (x : Entry) : List Entry → List Entry
  | [] => [x]
  | y :: ys => if y.ts ≤ x.ts then y :: insByTs x ys else x :: y :: ys

/-- Stated from the wording of the spec, for comparison with the code: the
combined history re-sorted by timestamp alone, ties at equal timestamps
broken by the original insertion order (a stable sort by timestamp). -/
def specTimestampStableOrder (l : List Entry) : List Entry :=
  l.foldl (fun acc x => insByTs x acc) []

/-- Claim C3 counterexample: with deposits to A1 and A2 at the same
timestamp 5, the code orders the tied entries by the full stored tuple
(timestamp, kind, amount, balance, account), placing the A2 deposit of 40
before the earlier-inserted A1 deposit of 100, while the claimed
timestamp-stable order keeps the A1 deposit first. -/
theorem claim3_counterexample :
    (merge_accounts sampleTieState 10 "A1" "A2").1 = true ∧
    alookup (merge_accounts sampleTieState 10 "A1" "A2").2.accounts "A1" ≠
      some (specTimestampStableOrder
        (((alookup sampleTieState.accounts "A1").getD [])
          ++ ((alookup sampleTieState.accounts "A2").getD []))
        ++ [⟨10, "Merged Account with A2", 40, 140, "A1"⟩]) ∧
    ((alookup (merge_accounts sampleTieState 10 "A1" "A2").2.accounts "A1").getD []).getD 2 default
      = ⟨5, "Deposit", 40, 40, "A2"⟩ ∧
    (specTimestampStableOrder
        (((alookup sampleTieState.accounts "A1").getD [])
          ++ ((alookup sampleTieState.accounts "A2").getD []))).getD 2 default
      = ⟨5, "Deposit", 100, 100, "A1"⟩ := by
  refine ⟨by decide, by decide, by decide, by decide⟩

/-- Claim C3 amended: after a successful merge the primary's entry sequence
is the concatenation of the two histories sorted by the full stored tuple
(timestamp first, then kind, amount, balance and origin as tie-breaks, not
the original insertion order), followed by one merge record timestamped at
the merge time whose stored balance is the sum of the two balances at the
moment of merge and whose amount is the secondary's last balance. -/
theorem claim3_amended (s : State) (ts : Int) (a1 a2 : String) (h1 h2 : List Entry)
    (e1 : alookup s.accounts a1 = some h1) (e2 : alookup s.accounts a2 = some h2)
    (hne : a1 ≠ a2) :
    (merge_accounts s ts a1 a2).1 = true ∧
    alookup (merge_accounts s ts a1 a2).2.accounts a1 =
      some (sortEntries (h1 ++ h2) ++
        [⟨ts, "Merged Account with " ++ a2, lastBal h2, lastBal h1 + lastBal h2, a1⟩]) := by
  simp [merge_accounts, e1, e2, hne, alookup_aset_self]

/-- Witness for claim C3: the amended theorem applied to the concrete tied
run, where the merge succeeds. -/
theorem claim3_witness :
    (merge_accounts sampleTieState 10 "A1" "A2").1 = true :=
  (claim3_amended sampleTieState 10 "A1" "A2"
    [⟨1, "Account Creation", 0, 0, "A1"⟩, ⟨5, "Deposit", 100, 100, "A1"⟩]
    [⟨2, "Account Creation", 0, 0, "A2"⟩, ⟨5, "Deposit", 40, 40, "A2"⟩]
    (by decide) (by decide) (by decide)).1

/-! ### Claim C1: which operations materialize cashback -/

/-- Redirecting beneficiaries preserves every payment's key, maturity,
cashback amount and materialization status. -/
theorem redirect_preserves (l : List (String × Payment)) (a1 a2 : String) :
    ((l.map (fun kv =>
        if kv.2.account = a2 then (kv.1, { kv.2 with account := a1 }) else kv)).map
      (fun kv => (kv.1, kv.2.maturity, kv.2.cashback, kv.2.status)))
      = l.map (fun kv => (kv.1, kv.2.maturity, kv.2.cashback, kv.2.status)) := by
  induction l with
  | nil => rfl
  | cons kv rest ih =>
    by_cases h : kv.2.account = a2 <;> simp [h, ih]

/-- Claim C1 counterexample: payment1 matures at 86400005 and is still
unmaterialized; top_spenders at 86400010 leaves the state untouched and
merge_accounts at 86400006 succeeds yet leaves payment1 unmaterialized
although due, so due-but-unmaterialized cashback remains after both calls. -/
theorem claim1_counterexample :
    alookup samplePayState.payments "payment1" = some ⟨"A2", 86400005, 2, false⟩ ∧
    applyOp samplePayState (Op.topSpendersOp 86400010 1) = samplePayState ∧
    (merge_accounts samplePayState 86400006 "A1" "A2").1 = true ∧
    alookup (merge_accounts samplePayState 86400006 "A1" "A2").2.payments "payment1"
      = some ⟨"A1", 86400005, 2, false⟩ := by
  refine ⟨by decide, rfl, by decide, by decide⟩

/-- Claim C1 amended: deposit, transfer, pay, get_balance and
get_payment_status materialize due cashback first, but top_spenders and
merge_accounts never invoke the scheduler: top_spenders leaves the state
unchanged and merge_accounts preserves every payment's maturity, amount and
materialization status (it only redirects beneficiaries), so cashback due at
the call's timestamp can remain unmaterialized after those two calls. -/
theorem claim1_amended (s : State) (ts : Int) (n : Nat) (a1 a2 : String) :
    applyOp s (Op.topSpendersOp ts n) = s ∧
    ((merge_accounts s ts a1 a2).2.payments.map
        (fun kv => (kv.1, kv.2.maturity, kv.2.cashback, kv.2.status)))
      = s.payments.map (fun kv => (kv.1, kv.2.maturity, kv.2.cashback, kv.2.status)) := by
  refine ⟨rfl, ?_⟩
  unfold merge_accounts
  cases e1 : alookup s.accounts a1 with
  | none => rfl
  | some h1 =>
    cases e2 : alookup s.accounts a2 with
    | none => rfl
    | some h2 =>
      by_cases hne : a1 = a2
      · simp [hne]
      · simp only [if_neg hne]
        exact redirect_preserves s.payments a1 a2

/-! ### Claim C10: failed calls still materialize first -/

/-- Claim C10: deposit, pay, transfer, get_payment_status and get_balance
run the cashback scheduler before validating their arguments, so a call that
returns the failure sentinel still leaves the fully materialized state; on
the concrete run, a deposit to a nonexistent account returns the sentinel
yet changes the state, raising the A2 balance from 200 to 202. -/
theorem claim10_failure_still_mutates :
    (∀ s ts id amt, alookup (process_cashback s ts).accounts id = none →
        deposit s ts id amt = (none, process_cashback s ts)) ∧
    (∀ s ts id amt, alookup (process_cashback s ts).accounts id = none →
        pay s ts id amt = (none, process_cashback s ts)) ∧
    (∀ s ts src tgt amt, alookup (process_cashback s ts).accounts src = none →
        transfer s ts src tgt amt = (none, process_cashback s ts)) ∧
    (∀ s ts id pid, alookup (process_cashback s ts).accounts id = none →
        get_payment_status s ts id pid = (none, process_cashback s ts)) ∧
    (∀ s ts id t, alookup (process_cashback s ts).accounts id = none →
        alookup (process_cashback s ts).merged_accounts id = none →
        get_balance s ts id t = (none, process_cashback s ts)) ∧
    ((deposit samplePayState 86400005 "ghost" 1).1 = none ∧
     (deposit samplePayState 86400005 "ghost" 1).2 ≠ samplePayState ∧
     lastBal ((alookup samplePayState.accounts "A2").getD []) = 200 ∧
     lastBal ((alookup (deposit samplePayState 86400005 "ghost" 1).2.accounts "A2").getD [])
       = 202) := by
  refine ⟨?_, ?_, ?_, ?_, ?_, by decide, by decide, by decide, by decide⟩
  · intro s ts id amt h
    simp [deposit, h]
  · intro s ts id amt h
    simp [pay, h]
  · intro s ts src tgt amt h
    cases e2 : alookup (process_cashback s ts).accounts tgt <;> simp [transfer, h, e2]
  · intro s ts id pid h
    simp [get_payment_status, h]
  · intro s ts id t h1 h2
    simp [get_balance, h1, h2]

/-- Witness for claim C10: the deposit clause applied to the concrete state
with a nonexistent target account. -/
theorem claim10_witness :
    alookup (process_cashback samplePayState 86400005).accounts "ghost" = none ∧
    deposit samplePayState 86400005 "ghost" 1
      = (none, process_cashback samplePayState 86400005) :=
  ⟨by decide,
   claim10_failure_still_mutates.1 samplePayState 86400005 "ghost" 1 (by decide)⟩

end Banking

namespace Banking

/-! ### Claims C5 and C6: string-sorted cashback processing and its
consequences for the conservation of money -/

/-- One pay call of 50 times i at time i by account A. -/
def tenPayStep (s : State) (i : Int) : State := (pay s i "A" (50 * i)).2

/-- A concrete run with ten payments: A is created with 10000 and pays
50 * i at each time i = 1..10, so payment i carries cashback i maturing at
86400000 + i. -/
def sampleTenPays : State :=
  tenPayStep (tenPayStep (tenPayStep (tenPayStep (tenPayStep (tenPayStep (tenPayStep
    (tenPayStep (tenPayStep (tenPayStep
      (deposit (create_account initState 0 "A").2 0 "A" 10000).2 1) 2) 3) 4) 5) 6) 7) 8) 9) 10

/-- Claim C5 evaluation at the failing input: with ten due payments the code
sorts the payment-id strings, so payment10 is processed immediately after
payment1 and before payment2; the ledger receives the cashback maturing at
86400010 before the one maturing at 86400002, and the running balance of the
86400010 entry (7261) excludes the eight credits the claimed
maturity-ordinal order would already have applied. -/
theorem claim5_failing_run :
    sortStrs (sampleTenPays.payments.map Prod.fst)
      = ["payment1", "payment10", "payment2", "payment3", "payment4", "payment5",
         "payment6", "payment7", "payment8", "payment9"] ∧
    ((alookup (process_cashback sampleTenPays 86400020).accounts "A").getD []).getD 13 default
      = ⟨86400010, "Cashback", 10, 7261, "A"⟩ ∧
    ((alookup (process_cashback sampleTenPays 86400020).accounts "A").getD []).getD 14 default
      = ⟨86400002, "Cashback", 2, 7263, "A"⟩ := by
  refine ⟨by decide, by decide, by decide⟩

/-- Replacing the value at a stored key moves the balance sum by the
difference of the last balances. -/
theorem sumBal_aset (l : List (String × List Entry)) (k : String) (v w : List Entry)
    (h : alookup l k = some w) :
    ((aset l k v).map (fun kv => lastBal kv.2)).sum + lastBal w
      = ((l.map (fun kv => lastBal kv.2)).sum) + lastBal v := by
  induction l with
  | nil => simp [alookup] at h
  | cons kv rest ih =>
    obtain ⟨k1, v1⟩ := kv
    by_cases hk : k1 = k
    · simp [alookup, hk] at h
      subst h
      simp [aset, hk]
      omega
    · simp [alookup, hk] at h
      have := ih h
      simp [aset, hk]
      omega

/-- Deleting a stored key removes its last balance from the balance sum. -/
theorem sumBal_adel (l : List (String × List Entry)) (k : String) (w : List Entry)
    (h : alookup l k = some w) :
    ((adel l k).map (fun kv => lastBal kv.2)).sum + lastBal w
      = (l.map (fun kv => lastBal kv.2)).sum := by
  induction l with
  | nil => simp [alookup] at h
  | cons kv rest ih =>
    obtain ⟨k1, v1⟩ := kv
    by_cases hk : k1 = k
    · simp [alookup, hk] at h
      subst h
      simp [adel, hk]
      omega
    · simp [alookup, hk] at h
      have := ih h
      simp [adel, hk]
      omega

/-- Deleting one key leaves the lookups of every other key unchanged. -/
theorem alookup_adel_ne {α : Type} (m : List (String × α)) (k k2 : String) (h : k ≠ k2) :
    alookup (adel m k) k2 = alookup m k2 := by
  induction m with
  | nil => simp [adel]
  | cons kv rest ih =>
    obtain ⟨k1, v1⟩ := kv
    by_cases hk : k1 = k
    · subst hk
      simp [adel, alookup, h]
    · by_cases hk2 : k1 = k2
      · simp [adel, alookup, hk, hk2, Ne.symm h]
      · simp [adel, alookup, hk, hk2, ih]

/-- Claim C6: transfer and merge conserve the sum of all last stored
balances unconditionally (successful or not, and relative to the
materialization transfer performs first); yet on the ten-pay run, where the
cashbacks were materialized in string order and the history is out of
timestamp order, the get_balance call at 86400020 re-sorts the history in
place and the total of all balances silently drops from 7305 to 7261 - a
balance query, not a deposit, pay or materialization, changed the total. -/
theorem claim6_conservation :
    (∀ (s : State) (ts : Int) (src tgt : String) (amt : Int),
      totalBalance (transfer s ts src tgt amt).2 = totalBalance (process_cashback s ts)) ∧
    (∀ (s : State) (ts : Int) (a1 a2 : String),
      totalBalance (merge_accounts s ts a1 a2).2 = totalBalance s) ∧
    (totalBalance sampleTenPays = 7250 ∧
     totalBalance (process_cashback sampleTenPays 86400020) = 7305 ∧
     totalBalance (get_balance sampleTenPays 86400020 "A" 86400020).2 = 7261) := by
  refine ⟨?_, ?_, by decide, by decide, by decide⟩
  · intro s ts src tgt amt
    cases e1 : alookup (process_cashback s ts).accounts src with
    | none =>
      cases e2 : alookup (process_cashback s ts).accounts tgt with
      | none => simp [transfer, e1, e2]
      | some ht => simp [transfer, e1, e2]
    | some hs =>
      cases e2 : alookup (process_cashback s ts).accounts tgt with
      | none => simp [transfer, e1, e2]
      | some ht =>
        by_cases hne : src = tgt
        · simp [transfer, e1, e2, hne]
        · by_cases hlt : lastBal hs < amt
          · simp [transfer, e1, e2, hne, hlt]
          · simp only [transfer, e1, e2, if_neg hne, if_neg hlt]
            have he2 : alookup (aset (process_cashback s ts).accounts src
                (hs ++ [⟨ts, "Transfer Out", amt, lastBal hs - amt, src⟩])) tgt
                = some ht := by
              rw [alookup_aset_ne _ _ _ _ hne]
              exact e2
            have s1 := sumBal_aset (process_cashback s ts).accounts src
              (hs ++ [⟨ts, "Transfer Out", amt, lastBal hs - amt, src⟩]) hs e1
            have s2 := sumBal_aset (aset (process_cashback s ts).accounts src
                (hs ++ [⟨ts, "Transfer Out", amt, lastBal hs - amt, src⟩])) tgt
              (ht ++ [⟨ts, "Transfer In", amt, lastBal ht + amt, tgt⟩]) ht he2
            simp only [totalBalance, lastBal_concat] at s1 s2 ⊢
            omega
  · intro s ts a1 a2
    cases e1 : alookup s.accounts a1 with
    | none =>
      cases e2 : alookup s.accounts a2 with
      | none => simp [merge_accounts, e1, e2]
      | some h2 => simp [merge_accounts, e1, e2]
    | some h1 =>
      cases e2 : alookup s.accounts a2 with
      | none => simp [merge_accounts, e1, e2]
      | some h2 =>
        by_cases hne : a1 = a2
        · simp [merge_accounts, e1, e2, hne]
        · simp only [merge_accounts, e1, e2, if_neg hne]
          have s1 := sumBal_aset s.accounts a1 (sortEntries (h1 ++ h2)) h1 e1
          have he2 : alookup (aset s.accounts a1 (sortEntries (h1 ++ h2))) a2 = some h2 := by
            rw [alookup_aset_ne _ _ _ _ hne]
            exact e2
          have s2 := sumBal_adel (aset s.accounts a1 (sortEntries (h1 ++ h2))) a2 h2 he2
          have he3 : alookup (adel (aset s.accounts a1 (sortEntries (h1 ++ h2))) a2) a1
              = some (sortEntries (h1 ++ h2)) := by
            rw [alookup_adel_ne _ _ _ (Ne.symm hne)]
            exact alookup_aset_self s.accounts a1 (sortEntries (h1 ++ h2))
          have s3 := sumBal_aset (adel (aset s.accounts a1 (sortEntries (h1 ++ h2))) a2) a1
            (sortEntries (h1 ++ h2)
              ++ [⟨ts, "Merged Account with " ++ a2, lastBal h2, lastBal h1 + lastBal h2, a1⟩])
            (sortEntries (h1 ++ h2)) he3
          simp only [totalBalance, lastBal_concat] at s1 s2 s3 ⊢
          omega

end Banking

namespace Banking

/-! ### Claim C9: cashback materialization acts exactly once -/

/-- Processing a key that is not a stored payment changes nothing. -/
theorem processKey_id_none (s : State) (k : String)
    (h : alookup s.payments k = none) : processKey s k = s := by
  simp [processKey, h]

/-- Processing an already materialized payment changes nothing. -/
theorem processKey_id_true (s : State) (k : String) (p : Payment)
    (h : alookup s.payments k = some p) (hp : p.status = true) : processKey s k = s := by
  simp [processKey, h, hp, aset_self _ _ _ h]

/-- Processing one key leaves every other payment entry untouched. -/
theorem alookup_processKey_ne (s : State) (k1 k : String) (h : k1 ≠ k) :
    alookup (processKey s k1).payments k = alookup s.payments k := by
  cases e : alookup s.payments k1 with
  | none => rw [processKey_id_none s k1 e]
  | some p =>
    by_cases hp : p.status
    · simp [processKey, e, hp, alookup_aset_ne _ _ _ _ h]
    · simp [processKey, e, hp, alookup_aset_ne _ _ _ _ h]

/-- After processing a stored key, its payment is materialized. -/
theorem processKey_status_true (s : State) (k : String) (p : Payment)
    (h : alookup s.payments k = some p) :
    ∃ q, alookup (processKey s k).payments k = some q ∧ q.status = true := by
  by_cases hp : p.status
  · exact ⟨p, by rw [processKey_id_true s k p h hp, h], hp⟩
  · refine ⟨{ p with status := true }, ?_, rfl⟩
    simp [processKey, h, hp, alookup_aset_self]

/-- A materialized payment stays materialized across any further processing. -/
theorem fold_preserves_status_true (ks : List String) :
    ∀ (s : State) (k : String) (q : Payment), alookup s.payments k = some q →
      q.status = true →
      ∃ q2, alookup (ks.foldl processKey s).payments k = some q2 ∧ q2.status = true := by
  induction ks with
  | nil => exact fun s k q h hq => ⟨q, h, hq⟩
  | cons k1 rest ih =>
    intro s k q h hq
    by_cases hk : k1 = k
    · subst hk
      obtain ⟨q1, h1, hq1⟩ := processKey_status_true s k1 q h
      exact ih (processKey s k1) k1 q1 h1 hq1
    · rw [List.foldl_cons]
      exact ih (processKey s k1) k q (by rw [alookup_processKey_ne s k1 k hk, h]) hq

/-- Any stored key listed for processing ends up materialized. -/
theorem fold_status_true_of_mem (ks : List String) :
    ∀ (s : State) (k : String) (p : Payment), k ∈ ks → alookup s.payments k = some p →
      ∃ q, alookup (ks.foldl processKey s).payments k = some q ∧ q.status = true := by
  induction ks with
  | nil => intro s k p hk; exact absurd hk (List.not_mem_nil k)
  | cons k1 rest ih =>
    intro s k p hk h
    by_cases heq : k1 = k
    · subst heq
      obtain ⟨q1, h1, hq1⟩ := processKey_status_true s k1 p h
      exact fold_preserves_status_true rest (processKey s k1) k1 q1 h1 hq1
    · rcases List.mem_cons.mp hk with hk1 | hk1
      · exact absurd hk1.symm heq
      · exact ih (processKey s k1) k p hk1 (by rw [alookup_processKey_ne s k1 k heq, h])

/-- Keys absent from the payments dictionary stay absent. -/
theorem fold_preserves_none (ks : List String) :
    ∀ (s : State) (k : String), alookup s.payments k = none →
      alookup (ks.foldl processKey s).payments k = none := by
  induction ks with
  | nil => exact fun s k h => h
  | cons k1 rest ih =>
    intro s k h
    by_cases hk : k1 = k
    · subst hk
      rw [List.foldl_cons, processKey_id_none s k1 h]
      exact ih s k1 h
    · exact ih (processKey s k1) k (by rw [alookup_processKey_ne s k1 k hk, h])

/-- A fold over keys that are each either absent or already materialized is
the identity. -/
theorem fold_id_of_settled (ks : List String) :
    ∀ s : State,
      (∀ k ∈ ks, alookup s.payments k = none ∨
        ∃ q, alookup s.payments k = some q ∧ q.status = true) →
      ks.foldl processKey s = s := by
  induction ks with
  | nil => exact fun s _ => rfl
  | cons k1 rest ih =>
    intro s hall
    have h1 : processKey s k1 = s := by
      rcases hall k1 (List.mem_cons_self k1 rest) with h | ⟨q, h, hq⟩
      · exact processKey_id_none s k1 h
      · exact processKey_id_true s k1 q h hq
    rw [List.foldl_cons, h1]
    exact ih s (fun k hk => hall k (List.mem_cons_of_mem k1 hk))

/-- Membership in an insertion is membership in the inserted list. -/
theorem mem_insStr (x y : String) : ∀ l : List String, x ∈ insStr y l → x = y ∨ x ∈ l := by
  intro l
  induction l with
  | nil => intro h; simpa [insStr] using h
  | cons z zs ih =>
    intro h
    by_cases hz : strLtB z y
    · simp only [insStr, hz, if_true, List.mem_cons] at h
      rcases h with h | h
      · exact Or.inr (by simp [h])
      · rcases ih h with h2 | h2
        · exact Or.inl h2
        · exact Or.inr (List.mem_cons_of_mem _ h2)
    · simp [insStr, hz] at h
      rcases h with h | h | h
      · exact Or.inl h
      · exact Or.inr (by simp [h])
      · exact Or.inr (List.mem_cons_of_mem _ h)

/-- Membership after string sorting implies original membership. -/
theorem mem_of_mem_sortStrs (x : String) : ∀ l : List String, x ∈ sortStrs l → x ∈ l := by
  intro l
  induction l with
  | nil => intro h; simpa [sortStrs] using h
  | cons z zs ih =>
    intro h
    rcases mem_insStr x z (sortStrs zs) h with h2 | h2
    · simp [h2]
    · exact List.mem_cons_of_mem _ (ih h2)

/-- Every key of the dictionary has a lookup result. -/
theorem alookup_isSome_of_key_mem {α : Type} (m : List (String × α)) (k : String)
    (h : k ∈ m.map Prod.fst) : (alookup m k).isSome = true := by
  induction m with
  | nil => simp at h
  | cons kv rest ih =>
    by_cases hk : kv.1 = k
    · simp [alookup, hk]
    · simp only [List.map_cons, List.mem_cons] at h
      rcases h with h | h
    
      · exact absurd h.symm hk
      · simp [alookup, hk, ih h]

end Banking

namespace Banking

/-- Generic: replacing the value at a stored key does not change the image
of the dictionary under a projection that ignores the changed part. -/
theorem aset_map_eq {α β : Type} (m : List (String × α)) (k : String) (v w : α)
    (f : String × α → β) (h : alookup m k = some w) (hf : f (k, v) = f (k, w)) :
    (aset m k v).map f = m.map f := by
  induction m with
  | nil => simp [alookup] at h
  | cons kv rest ih =>
    obtain ⟨k1, v1⟩ := kv
    by_cases hk : k1 = k
    · simp [alookup, hk] at h
      subst hk
      simp [aset, hf, h]
    · simp [alookup, hk] at h
      simp [aset, hk, ih h]

/-- One processing step preserves every payment's key and maturity. -/
theorem processKey_keysMat (s : State) (k : String) :
    (processKey s k).payments.map (fun kv => (kv.1, kv.2.maturity))
      = s.payments.map (fun kv => (kv.1, kv.2.maturity)) := by
  cases e : alookup s.payments k with
  | none => rw [processKey_id_none s k e]
  | some p =>
    by_cases hp : p.status
    · rw [processKey_id_true s k p e hp]
    · simp only [processKey, e, hp, if_false]
      exact aset_map_eq s.payments k _ p _ e rfl

/-- A whole fold of processing steps preserves keys and maturities. -/
theorem fold_keysMat (ks : List String) :
    ∀ s : State, ((ks.foldl processKey s).payments.map (fun kv => (kv.1, kv.2.maturity)))
      = s.payments.map (fun kv => (kv.1, kv.2.maturity)) := by
  induction ks with
  | nil => exact fun s => rfl
  | cons k1 rest ih =>
    intro s
    rw [List.foldl_cons, ih (processKey s k1), processKey_keysMat]

/-- Dictionaries that agree on keys and maturities produce the same list of
due keys. -/
theorem filter_map_fst_eq_of_keysMat (p : List (String × Payment)) (t : Int) :
    ∀ q : List (String × Payment),
      p.map (fun kv => (kv.1, kv.2.maturity)) = q.map (fun kv => (kv.1, kv.2.maturity)) →
      ((p.filter (fun kv => kv.2.maturity ≤ t)).map Prod.fst)
        = (q.filter (fun kv => kv.2.maturity ≤ t)).map Prod.fst := by
  induction p with
  | nil =>
    intro q h
    have : q = [] := by
      cases q with
      | nil => rfl
      | cons kv rest => simp at h
    rw [this]
  | cons kv rest ih =>
    intro q h
    cases q with
    | nil => simp at h
    | cons kv2 rest2 =>
      simp only [List.map_cons, List.cons.injEq, Prod.mk.injEq] at h
      obtain ⟨⟨hfst, hmat⟩, htail⟩ := h
      by_cases hdue : kv.2.maturity ≤ t
      · have hdue2 : kv2.2.maturity ≤ t := by rw [← hmat]; exact hdue
        simp only [List.filter_cons, hdue, hdue2, decide_True, if_true, List.map_cons, hfst]
        rw [ih rest2 htail]
      · have hdue2 : ¬ kv2.2.maturity ≤ t := by rw [← hmat]; exact hdue
        simp only [List.filter_cons, hdue, hdue2, decide_False, if_false]
        exact ih rest2 htail

/-- Claim C9 part 1: running process_cashback twice at the same time is the
same as running it once. -/
theorem process_cashback_idem (s : State) (now : Int) :
    process_cashback (process_cashback s now) now = process_cashback s now := by
  simp only [process_cashback]
  set due := sortStrs ((s.payments.filter (fun kv => kv.2.maturity ≤ now)).map Prod.fst)
    with hdue
  set s1 := due.foldl processKey s with hs1
  have hkm : s1.payments.map (fun kv => (kv.1, kv.2.maturity))
      = s.payments.map (fun kv => (kv.1, kv.2.maturity)) := by
    rw [hs1]; exact fold_keysMat due s
  have hsame : ((s1.payments.filter (fun kv => kv.2.maturity ≤ now)).map Prod.fst)
      = (s.payments.filter (fun kv => kv.2.maturity ≤ now)).map Prod.fst :=
    filter_map_fst_eq_of_keysMat s1.payments now s.payments hkm
  rw [hsame, ← hdue]
  apply fold_id_of_settled
  intro k hk
  have hk2 : k ∈ (s.payments.filter (fun kv => kv.2.maturity ≤ now)).map Prod.fst :=
    mem_of_mem_sortStrs k _ hk
  obtain ⟨kv, hkv, hfst⟩ := List.mem_map.mp hk2
  have hmem : kv ∈ s.payments := List.mem_of_mem_filter hkv
  have hsome : (alookup s.payments k).isSome = true :=
    alookup_isSome_of_key_mem s.payments k (hfst ▸ List.mem_map_of_mem Prod.fst hmem)
  obtain ⟨p, hp⟩ := Option.isSome_iff_exists.mp hsome
  obtain ⟨q, hq, hqs⟩ := fold_status_true_of_mem due s k p hk hp
  exact Or.inr ⟨q, hq, hqs⟩

end Banking

namespace Banking

/-- Pointwise relation between a payment entry before and after scheduler
activity: same key, beneficiary, maturity and amount, and a materialized
status never reverts to unmaterialized. -/
def pmRel (a b : String × Payment) : Prop :=
  a.1 = b.1 ∧ a.2.account = b.2.account ∧ a.2.maturity = b.2.maturity ∧
    a.2.cashback = b.2.cashback ∧ (a.2.status = true → b.2.status = true)

theorem pmRel_refl (a : String × Payment) : pmRel a a :=
  ⟨rfl, rfl, rfl, rfl, id⟩

theorem forall2_pm_refl (l : List (String × Payment)) : List.Forall₂ pmRel l l := by
  induction l with
  | nil => exact List.Forall₂.nil
  | cons a rest ih => exact List.Forall₂.cons (pmRel_refl a) ih

theorem forall2_pm_trans {a b : List (String × Payment)} (h1 : List.Forall₂ pmRel a b) :
    ∀ c : List (String × Payment), List.Forall₂ pmRel b c → List.Forall₂ pmRel a c := by
  induction h1 with
  | nil =>
    intro c h2
    cases h2
    exact List.Forall₂.nil
  | cons hab htail ih =>
    intro c h2
    cases h2 with
    | cons hbc htail2 =>
      refine List.Forall₂.cons ?_ (ih _ htail2)
      obtain ⟨e1, e2, e3, e4, e5⟩ := hab
      obtain ⟨f1, f2, f3, f4, f5⟩ := hbc
      exact ⟨e1.trans f1, e2.trans f2, e3.trans f3, e4.trans f4, fun h => f5 (e5 h)⟩

/-- Updating a stored key with a value that keeps the descriptive fields and
only possibly raises the status is a pmRel step. -/
theorem forall2_pm_aset (m : List (String × Payment)) (k : String) (p q : Payment)
    (h : alookup m k = some p)
    (ha : p.account = q.account) (hm : p.maturity = q.maturity)
    (hc : p.cashback = q.cashback) (hs : p.status = true → q.status = true) :
    List.Forall₂ pmRel m (aset m k q) := by
  induction m with
  | nil => simp [alookup] at h
  | cons kv rest ih =>
    obtain ⟨k1, v1⟩ := kv
    by_cases hk : k1 = k
    · simp [alookup, hk] at h
      subst hk
      simp only [aset, if_pos rfl]
      subst h
      exact List.Forall₂.cons ⟨rfl, ha, hm, hc, hs⟩ (forall2_pm_refl rest)
    · simp [alookup, hk] at h
      simp only [aset, if_neg hk]
      exact List.Forall₂.cons (pmRel_refl (k1, v1)) (ih h)

/-- One processing step relates the payment dictionaries by pmRel. -/
theorem processKey_pm (s : State) (k : String) :
    List.Forall₂ pmRel s.payments (processKey s k).payments := by
  cases e : alookup s.payments k with
  | none =>
    rw [processKey_id_none s k e]
    exact forall2_pm_refl _
  | some p =>
    by_cases hp : p.status
    · rw [processKey_id_true s k p e hp]
      exact forall2_pm_refl _
    · simp only [processKey, e, hp, if_false]
      exact forall2_pm_aset s.payments k p _ e rfl rfl rfl (fun h => rfl)

/-- A whole fold of processing steps relates the dictionaries by pmRel. -/
theorem fold_pm (ks : List String) :
    ∀ s : State, List.Forall₂ pmRel s.payments ((ks.foldl processKey s).payments) := by
  induction ks with
  | nil => exact fun s => forall2_pm_refl _
  | cons k1 rest ih =>
    intro s
    rw [List.foldl_cons]
    exact forall2_pm_trans (processKey_pm s k1) _ (ih (processKey s k1))

/-- Crediting a stored account with one more entry adds exactly one to the
total number of stored entries. -/
theorem sumLen_aset (l : List (String × List Entry)) (k : String) (h : List Entry) (e : Entry)
    (hl : alookup l k = some h) :
    ((aset l k (h ++ [e])).map (fun kv => kv.2.length)).sum
      = ((l.map (fun kv => kv.2.length)).sum) + 1 := by
  induction l with
  | nil => simp [alookup] at hl
  | cons kv rest ih =>
    obtain ⟨k1, v1⟩ := kv
    by_cases hk : k1 = k
    · simp [alookup, hk] at hl
      subst hl
      simp [aset, hk]
      omega
    · simp [alookup, hk] at hl
      simp [aset, hk, ih hl]
      omega

/-- Flipping one stored unmaterialized payment to materialized adds exactly
one to the count of materialized payments. -/
theorem countP_aset_true (m : List (String × Payment)) (k : String) (p q : Payment)
    (hl : alookup m k = some p) (hp : p.status = false) (hq : q.status = true) :
    (aset m k q).countP (fun kv => kv.2.status)
      = m.countP (fun kv => kv.2.status) + 1 := by
  induction m with
  | nil => simp [alookup] at hl
  | cons kv rest ih =>
    obtain ⟨k1, v1⟩ := kv
    by_cases hk : k1 = k
    · simp [alookup, hk] at hl
      subst hl
      simp [aset, hk, List.countP_cons, hp, hq]
    · simp [alookup, hk] at hl
      simp [aset, hk, List.countP_cons, ih hl]
      omega

/-- One processing step appends a ledger entry exactly when it flips one
payment from unmaterialized to materialized, provided every beneficiary
account exists. -/
theorem processKey_conserves (s : State) (k : String)
    (HB : ∀ kv ∈ s.payments, (alookup s.accounts kv.2.account).isSome = true) :
    totalEntries (processKey s k) + trueCount s
      = totalEntries s + trueCount (processKey s k) := by
  cases e : alookup s.payments k with
  | none => rw [processKey_id_none s k e]
  | some p =>
    by_cases hp : p.status
    · rw [processKey_id_true s k p e hp]
    · have hmem : (k, p) ∈ s.payments := alookup_mem s.payments k p e
      have hex : (alookup s.accounts p.account).isSome = true := HB (k, p) hmem
      obtain ⟨h, hh⟩ := Option.isSome_iff_exists.mp hex
      simp only [processKey, e, if_neg hp, hh]
      simp only [totalEntries, trueCount]
      rw [sumLen_aset s.accounts p.account h _ hh,
        countP_aset_true s.payments k p _ e (by simpa using hp) rfl]
      omega

/-- One processing step keeps every beneficiary account existing. -/
theorem processKey_preserves_HB (s : State) (k : String)
    (HB : ∀ kv ∈ s.payments, (alookup s.accounts kv.2.account).isSome = true) :
    ∀ kv ∈ (processKey s k).payments,
      (alookup (processKey s k).accounts kv.2.account).isSome = true := by
  cases e : alookup s.payments k with
  | none =>
    rw [processKey_id_none s k e]
    exact HB
  | some p =>
    by_cases hp : p.status
    · rw [processKey_id_true s k p e hp]
      exact HB
    · intro kv hkv
      have hmem : (k, p) ∈ s.payments := alookup_mem s.payments k p e
      have hacc : ∀ a : String, (alookup s.accounts a).isSome = true →
          (alookup (processKey s k).accounts a).isSome = true := by
        intro a haa
        simp only [processKey, e, hp, if_false]
        cases e2 : alookup s.accounts p.account with
        | none => simpa [e2] using haa
        | some h => simpa [e2] using alookup_aset_isSome s.accounts p.account a _ haa
      have hkv2 : kv ∈ aset s.payments k { p with status := true } := by
        simpa [processKey, e, hp] using hkv
      rcases mem_aset s.payments k _ kv hkv2 with hkv3 | hkv3
      · subst hkv3
        exact hacc p.account (HB (k, p) hmem)
      · exact hacc kv.2.account (HB kv hkv3)

/-- A fold of processing steps preserves beneficiary existence and appends
exactly as many entries as payments it materializes. -/
theorem fold_conserves (ks : List String) :
    ∀ s : State, (∀ kv ∈ s.payments, (alookup s.accounts kv.2.account).isSome = true) →
      (∀ kv ∈ (ks.foldl processKey s).payments,
        (alookup (ks.foldl processKey s).accounts kv.2.account).isSome = true) ∧
      totalEntries (ks.foldl processKey s) + trueCount s
        = totalEntries s + trueCount (ks.foldl processKey s) := by
  induction ks with
  | nil => exact fun s HB => ⟨HB, rfl⟩
  | cons k1 rest ih =>
    intro s HB
    have HB1 := processKey_preserves_HB s k1 HB
    obtain ⟨HB2, heq⟩ := ih (processKey s k1) HB1
    have heq1 := processKey_conserves s k1 HB
    refine ⟨by simpa using HB2, ?_⟩
    simp only [List.foldl_cons] at heq ⊢
    omega

/-- Claim C9: cashback materialization acts on each pending cashback exactly
once.  Part one: a second run at the same time is the identity.  Part two:
every run preserves each payment's key, beneficiary, maturity and amount,
and a materialized status never reverts.  Part three: when every beneficiary
account exists, a run appends exactly one ledger entry per payment it flips
from unmaterialized to materialized, so nothing already materialized is ever
credited a second time. -/
theorem claim9_materialize_once :
    (∀ (s : State) (now : Int),
      process_cashback (process_cashback s now) now = process_cashback s now) ∧
    (∀ (s : State) (now : Int),
      List.Forall₂ pmRel s.payments (process_cashback s now).payments) ∧
    (∀ (s : State) (now : Int),
      (∀ kv ∈ s.payments, (alookup s.accounts kv.2.account).isSome = true) →
      totalEntries (process_cashback s now) + trueCount s
        = totalEntries s + trueCount (process_cashback s now)) := by
  refine ⟨process_cashback_idem, ?_, ?_⟩
  · intro s now
    simp only [process_cashback]
    exact fold_pm _ s
  · intro s now HB
    simp only [process_cashback]
    exact (fold_conserves _ s HB).2

/-- Witness for claim C9: the conservation clause applied to the concrete
funded run at the maturity time, where the one due payment is materialized
with exactly one new ledger entry. -/
theorem claim9_witness :
    (∀ kv ∈ samplePayState.payments,
      (alookup samplePayState.accounts kv.2.account).isSome = true) ∧
    totalEntries (process_cashback samplePayState 86400005) + trueCount samplePayState
      = totalEntries samplePayState
        + trueCount (process_cashback samplePayState 86400005) :=
  ⟨by decide, claim9_materialize_once.2.2 samplePayState 86400005 (by decide)⟩

end Banking

namespace Banking

/-! ### Claim C2: get_balance on an account retired by a merge -/

/-- In a nondecreasing list the entries at most x form a prefix whose length
is the count of such entries. -/
theorem sorted_count_le (a : List Int) (x : Int) :
    List.Pairwise (· ≤ ·) a →
    ∀ i, i < a.length → (a.getD i 0 ≤ x ↔ i < a.countP (fun v => decide (v ≤ x))) := by
  induction a with
  | nil => intro _ i hi; simp at hi
  | cons b rest ih =>
    intro hs i hi
    rw [List.pairwise_cons] at hs
    obtain ⟨hball, hrest⟩ := hs
    rw [List.countP_cons]
    cases i with
    | zero =>
      rw [List.getD_cons_zero]
      by_cases hbx : b ≤ x
      · have hione : (if decide (b ≤ x) = true then 1 else 0) = 1 := by simp [hbx]
        rw [hione]
        omega
      · have h0 : rest.countP (fun v => decide (v ≤ x)) = 0 := by
          rw [List.countP_eq_zero]
          intro v hv
          have hbv := hball v hv
          simp only [decide_eq_true_eq]
          omega
        have hizero : (if decide (b ≤ x) = true then 1 else 0) = 0 := by simp [hbx]
        rw [hizero, h0]
        omega
    | succ j =>
      rw [List.getD_cons_succ]
      have hj : j < rest.length := by simpa using hi
      rw [ih hrest j hj]
      by_cases hbx : b ≤ x
      · have hione : (if decide (b ≤ x) = true then 1 else 0) = 1 := by simp [hbx]
        rw [hione]
        omega
      · have h0 : rest.countP (fun v => decide (v ≤ x)) = 0 := by
          rw [List.countP_eq_zero]
          intro v hv
          have hbv := hball v hv
          simp only [decide_eq_true_eq]
          omega
        have hizero : (if decide (b ≤ x) = true then 1 else 0) = 0 := by simp [hbx]
        rw [hizero, h0]
        omega

/-- The binary-search loop of bisect_right lands exactly on the boundary
index t whenever lo and hi bracket it and the fuel covers the interval. -/
theorem bisectLoop_eq (a : List Int) (x : Int) (t : Nat)
    (hpre : ∀ i, i < a.length → (a.getD i 0 ≤ x ↔ i < t)) :
    ∀ (fuel lo hi : Nat), hi ≤ a.length → hi - lo ≤ fuel → lo ≤ t → t ≤ hi →
      bisectLoop a x fuel lo hi = t := by
  intro fuel
  induction fuel with
  | zero =>
    intro lo hi _ h2 h3 h4
    simp only [bisectLoop]
    omega
  | succ f ih =>
    intro lo hi h1 h2 h3 h4
    simp only [bisectLoop]
    by_cases hlh : lo < hi
    · simp only [hlh, if_true]
      by_cases hcmp : x < a.getD ((lo + hi) / 2) 0
      · simp only [hcmp, if_true]
        have hmt : t ≤ (lo + hi) / 2 := by
          by_contra hc
          push_neg at hc
          have := (hpre ((lo + hi) / 2) (by omega)).mpr hc
          omega
        exact ih lo ((lo + hi) / 2) (by omega) (by omega) h3 hmt
      · simp only [hcmp, if_false]
        push_neg at hcmp
        have hmt : (lo + hi) / 2 < t := (hpre ((lo + hi) / 2) (by omega)).mp hcmp
        exact ih ((lo + hi) / 2 + 1) hi h1 (by omega) (by omega) h4
    · simp only [hlh, if_false]
      omega

/-- On a nondecreasing list, bisect_right returns the number of elements at
most x, exactly as the Python library documents for sorted input. -/
theorem bisect_right_eq (a : List Int) (x : Int) (hs : List.Pairwise (· ≤ ·) a) :
    bisect_right a x = a.countP (fun v => decide (v ≤ x)) := by
  have hc : a.countP (fun v => decide (v ≤ x)) ≤ a.length :=
    List.countP_le_length _
  exact bisectLoop_eq a x _ (sorted_count_le a x hs) (a.length + 1) 0 a.length
    le_rfl (by omega) (by omega) hc

/-- balance_query on a stored, nonempty history whose origin-filtered
timestamps are nondecreasing returns the balance of the last filtered entry
at or before time_at, and the not-found sentinel when there is none. -/
theorem balance_query_spec (s : State) (timestamp : Int) (aid tgt : String)
    (time_at : Int) (hist : List Entry)
    (hl : alookup s.accounts aid = some hist) (hne : hist ≠ [])
    (hs : List.Pairwise (· ≤ ·) ((hist.filter (fun e => e.origin = tgt)).map (fun e => e.ts))) :
    balance_query s timestamp aid time_at tgt =
      (if (hist.filter (fun e => e.origin = tgt)).countP (fun e => decide (e.ts ≤ time_at)) = 0
       then none
       else some (((hist.filter (fun e => e.origin = tgt)).getD
         ((hist.filter (fun e => e.origin = tgt)).countP (fun e => decide (e.ts ≤ time_at)) - 1)
         default).bal)) := by
  have hie : hist.isEmpty = false := by
    cases hist with
    | nil => exact absurd rfl hne
    | cons e es => rfl
  simp only [balance_query, hl, hie, Bool.false_eq_true, if_false]
  rw [bisect_right_eq _ _ hs, List.countP_map]
  rfl

/-- Claim C2 counterexample: A2 was retired by the merge at time 10, which
is at or before time_at = 15, and A2 does have pre-merge history at that
time (entries at times 2 and 4), yet get_balance answers the not-found
sentinel instead of falling through to the combined post-merge view. -/
theorem claim2_counterexample :
    alookup sampleMergeState.merged_accounts "A2" = some "A1" ∧
    (((alookup sampleMergeState.accounts "A1").getD []).filter
        (fun e => e.kind = "Merged Account with A2")).head?
      = some ⟨10, "Merged Account with A2", 20, 30, "A1"⟩ ∧
    ((alookup sampleMergeState.accounts "A1").getD []).filter
        (fun e => e.origin = "A2" ∧ e.ts ≤ 15) ≠ [] ∧
    (get_balance sampleMergeState 20 "A2" 15).1 = none ∧
    (get_balance sampleMergeState 20 "A1" 15).1 = some 30 := by
  refine ⟨by decide, by decide, by decide, by decide, by decide⟩

/-- Claim C2 amended: for a query on an account retired by a merge (resolved
in one step through the merge mapping), if the merge record's timestamp is
after time_at the answer is the balance of the last entry with the retired
origin at or before time_at (not-found if there is none); if the merge
happened at or before time_at the answer is always the not-found sentinel,
even when pre-merge history exists. -/
theorem claim2_amended (s : State) (ts : Int) (a : String) (time_at : Int)
    (p : String) (hist : List Entry) (m : Entry)
    (h1 : alookup (process_cashback s ts).accounts a = none)
    (h2 : alookup (process_cashback s ts).merged_accounts a = some p)
    (h3 : alookup (process_cashback s ts).accounts p = some hist)
    (h4 : (hist.filter (fun e => e.kind = "Merged Account with " ++ a)).head? = some m)
    (h5 : List.Pairwise (· ≤ ·) ((hist.filter (fun e => e.origin = a)).map (fun e => e.ts))) :
    (m.ts ≤ time_at → (get_balance s ts a time_at).1 = none) ∧
    (time_at < m.ts →
      (get_balance s ts a time_at).1 =
        (if (hist.filter (fun e => e.origin = a)).countP (fun e => decide (e.ts ≤ time_at)) = 0
         then none
         else some (((hist.filter (fun e => e.origin = a)).getD
           ((hist.filter (fun e => e.origin = a)).countP
             (fun e => decide (e.ts ≤ time_at)) - 1) default).bal))) := by
  have hne : hist ≠ [] := by
    intro hcon
    rw [hcon] at h4
    simp at h4
  have hres : resolveChain (process_cashback s ts) a p
      ((process_cashback s ts).merged_accounts.length + 1) = some (a, p) := by
    simp [resolveChain, h3]
  constructor
  · intro hle
    have hnlt : ¬ time_at < m.ts := by omega
    simp [get_balance, h1, h2, hres, h3, h4, hnlt]
  · intro hlt
    simp only [get_balance, h1, h2, hres, h3, h4, Option.getD_some, hlt, if_true]
    exact balance_query_spec (process_cashback s ts) ts p a time_at hist h3 hne h5

/-- Witness for claim C2: both branches of the amended theorem applied to
the concrete merged run, at a time before and a time after the merge. -/
theorem claim2_witness :
    (get_balance sampleMergeState 20 "A2" 15).1 = none ∧
    (get_balance sampleMergeState 20 "A2" 5).1 = some 20 := by
  constructor
  · exact (claim2_amended sampleMergeState 20 "A2" 15 "A1"
      [⟨1, "Account Creation", 0, 0, "A1"⟩, ⟨2, "Account Creation", 0, 0, "A2"⟩,
       ⟨3, "Deposit", 10, 10, "A1"⟩, ⟨4, "Deposit", 20, 20, "A2"⟩,
       ⟨10, "Merged Account with A2", 20, 30, "A1"⟩]
      ⟨10, "Merged Account with A2", 20, 30, "A1"⟩
      (by decide) (by decide) (by decide) (by decide) (by decide)).1 (by decide)
  · have h := (claim2_amended sampleMergeState 20 "A2" 5 "A1"
      [⟨1, "Account Creation", 0, 0, "A1"⟩, ⟨2, "Account Creation", 0, 0, "A2"⟩,
       ⟨3, "Deposit", 10, 10, "A1"⟩, ⟨4, "Deposit", 20, 20, "A2"⟩,
       ⟨10, "Merged Account with A2", 20, 30, "A1"⟩]
      ⟨10, "Merged Account with A2", 20, 30, "A1"⟩
      (by decide) (by decide) (by decide) (by decide) (by decide)).2 (by decide)
    rw [h]
    decide

end Banking

namespace Banking

/-! ### Claim C7: payment identifiers and the global ordinal -/

/-- The canonical decimal digit list of a natural number, most significant
digit first. -/
def decDigits (n : Nat) : List Char :=
  if h : n < 10 then [Nat.digitChar n]
  else decDigits (n / 10) ++ [Nat.digitChar (n % 10)]
decreasing_by exact Nat.div_lt_self (by omega) (by omega)

/-- Unfolding of decDigits for a single-digit number. -/
theorem decDigits_lt (n : Nat) (h : n < 10) : decDigits n = [Nat.digitChar n] := by
  rw [decDigits]
  exact dif_pos h

/-- Unfolding of decDigits for a multi-digit number. -/
theorem decDigits_ge (n : Nat) (h : ¬ n < 10) :
    decDigits n = decDigits (n / 10) ++ [Nat.digitChar (n % 10)] := by
  conv_lhs => rw [decDigits]
  exact dif_neg h

/-- The fueled digit loop of the core library computes the canonical digit
list whenever the fuel exceeds the number. -/
theorem toDigitsCore_eq_decDigits :
    ∀ (fuel n : Nat) (ds : List Char), n < fuel →
      Nat.toDigitsCore 10 fuel n ds = decDigits n ++ ds := by
  intro fuel
  induction fuel with
  | zero => intro n ds h; omega
  | succ f ih =>
    intro n ds h
    by_cases h0 : n / 10 = 0
    · have hn : n < 10 := by omega
      simp only [Nat.toDigitsCore, h0, if_true]
      rw [decDigits_lt n hn]
      have : n % 10 = n := Nat.mod_eq_of_lt hn
      rw [this]
      rfl
    · have hn : ¬ n < 10 := by omega
      simp only [Nat.toDigitsCore, h0, if_false]
      rw [ih (n / 10) _ (by omega), decDigits_ge n hn]
      simp

/-- Nat.toDigits at base 10 is the canonical digit list. -/
theorem toDigits_eq_decDigits (n : Nat) : Nat.toDigits 10 n = decDigits n := by
  rw [Nat.toDigits, toDigitsCore_eq_decDigits (n + 1) n [] (by omega)]
  simp

/-- Digit lists are never empty. -/
theorem decDigits_ne_nil (n : Nat) : decDigits n ≠ [] := by
  rw [decDigits]
  by_cases h : n < 10
  · simp [h]
  · simp [h]

/-- The digit characters of the ten decimal digits are pairwise distinct. -/
theorem digitChar_inj_lt : ∀ a < 10, ∀ b < 10,
    Nat.digitChar a = Nat.digitChar b → a = b := by decide

/-- Appending one element is injective in both parts. -/
theorem append_singleton_inj (d1 d2 : List Char) (a b : Char)
    (h : d1 ++ [a] = d2 ++ [b]) : d1 = d2 ∧ a = b := by
  have h1 := congrArg List.reverse h
  simp only [List.reverse_append, List.reverse_cons, List.reverse_nil, List.nil_append,
    List.singleton_append, List.cons.injEq] at h1
  exact ⟨List.reverse_injective h1.2, h1.1⟩

/-- The canonical digit list determines the number. -/
theorem decDigits_inj : ∀ m : Nat, ∀ n : Nat, decDigits m = decDigits n → m = n := by
  intro m
  induction m using Nat.strong_induction_on with
  | _ m ih =>
    intro n h
    by_cases hm : m < 10
    · by_cases hn : n < 10
      · rw [decDigits_lt m hm, decDigits_lt n hn] at h
        simp only [List.cons.injEq, and_true] at h
        exact digitChar_inj_lt m hm n hn h
      · rw [decDigits_lt m hm, decDigits_ge n hn] at h
        have hlen := congrArg List.length h
        simp only [List.length_cons, List.length_nil, List.length_append] at hlen
        have hne := decDigits_ne_nil (n / 10)
        have : 1 ≤ (decDigits (n / 10)).length := by
          cases hd : decDigits (n / 10) with
          | nil => exact absurd hd hne
          | cons c cs => simp
        omega
    · by_cases hn : n < 10
      · rw [decDigits_ge m hm, decDigits_lt n hn] at h
        have hlen := congrArg List.length h
        simp only [List.length_cons, List.length_nil, List.length_append] at hlen
        have hne := decDigits_ne_nil (m / 10)
        have : 1 ≤ (decDigits (m / 10)).length := by
          cases hd : decDigits (m / 10) with
          | nil => exact absurd hd hne
          | cons c cs => simp
        omega
      · rw [decDigits_ge m hm, decDigits_ge n hn] at h
        obtain ⟨hinit, hlast⟩ := append_singleton_inj _ _ _ _ h
        have hmod : m % 10 = n % 10 :=
          digitChar_inj_lt (m % 10) (by omega) (n % 10) (by omega) hlast
        have hdiv : m / 10 = n / 10 :=
          ih (m / 10) (Nat.div_lt_self (by omega) (by omega)) (n / 10) hinit
        omega

/-- The decimal string of a natural number determines the number. -/
theorem nat_repr_inj (m n : Nat) (h : Nat.repr m = Nat.repr n) : m = n := by
  apply decDigits_inj
  rw [← toDigits_eq_decDigits, ← toDigits_eq_decDigits]
  exact congrArg String.data h

/-- The payment identifier the code builds for a given ordinal. -/
def paymentId (n : Nat) : String := "payment" ++ Nat.repr n

/-- Payment identifiers of distinct ordinals are distinct. -/
theorem paymentId_inj (m n : Nat) (h : paymentId m = paymentId n) : m = n := by
  apply nat_repr_inj
  have hd2 : ("payment").data ++ (Nat.repr m).data
      = ("payment").data ++ (Nat.repr n).data := congrArg String.data h
  exact String.ext (List.append_cancel_left hd2)

/-- The identifiers payment1 .. paymentk, in order of creation. -/
def canonicalIds (k : Nat) : List String :=
  (List.range k).map (fun i => paymentId (i + 1))

/-- The next identifier is fresh: paymentk+1 is none of payment1 .. paymentk. -/
theorem paymentId_fresh (k : Nat) : paymentId (k + 1) ∉ canonicalIds k := by
  intro hmem
  obtain ⟨i, hi, hip⟩ := List.mem_map.mp hmem
  have := paymentId_inj _ _ hip
  have hik := List.mem_range.mp hi
  omega

end Banking

namespace Banking

/-- Invariant of every reachable state: the payment keys are exactly
payment1 .. paymentk in creation order, where k is the number of payments. -/
def goodKeys (s : State) : Prop :=
  s.payments.map Prod.fst = canonicalIds s.payments.length

theorem goodKeys_init : goodKeys initState := rfl

/-- A key outside the dictionary looks up to nothing. -/
theorem alookup_eq_none_of_not_mem {α : Type} (m : List (String × α)) (k : String)
    (h : k ∉ m.map Prod.fst) : alookup m k = none := by
  induction m with
  | nil => rfl
  | cons kv rest ih =>
    simp only [List.map_cons, List.mem_cons] at h
    push_neg at h
    have hne : kv.1 ≠ k := fun he => h.1 he.symm
    simp [alookup, hne, ih h.2]

/-- One scheduler step never changes the key sequence. -/
theorem processKey_map_fst (s : State) (k : String) :
    (processKey s k).payments.map Prod.fst = s.payments.map Prod.fst := by
  cases e : alookup s.payments k with
  | none => rw [processKey_id_none s k e]
  | some p =>
    by_cases hp : p.status
    · rw [processKey_id_true s k p e hp]
    · simp only [processKey, e, if_neg hp]
      exact aset_map_fst s.payments k _ p e

/-- A fold of scheduler steps never changes the key sequence. -/
theorem fold_map_fst (ks : List String) :
    ∀ s : State, ((ks.foldl processKey s).payments.map Prod.fst)
      = s.payments.map Prod.fst := by
  induction ks with
  | nil => exact fun s => rfl
  | cons k1 rest ih =>
    intro s
    rw [List.foldl_cons, ih, processKey_map_fst]

/-- process_cashback never changes the key sequence. -/
theorem pc_map_fst (s : State) (ts : Int) :
    (process_cashback s ts).payments.map Prod.fst = s.payments.map Prod.fst := by
  simp only [process_cashback]
  exact fold_map_fst _ s

/-- process_cashback never changes the number of payments. -/
theorem pc_payments_length (s : State) (ts : Int) :
    (process_cashback s ts).payments.length = s.payments.length := by
  have := congrArg List.length (pc_map_fst s ts)
  simpa using this

theorem goodKeys_pc (s : State) (ts : Int) (h : goodKeys s) :
    goodKeys (process_cashback s ts) := by
  unfold goodKeys at h ⊢
  rw [pc_map_fst, pc_payments_length, h]

/-- create_account never touches the payments dictionary. -/
theorem create_account_payments (s : State) (ts : Int) (id : String) :
    (create_account s ts id).2.payments = s.payments := by
  cases e : alookup s.accounts id <;> simp [create_account, e]

/-- deposit leaves the payments of the materialized state unchanged. -/
theorem deposit_payments (s : State) (ts : Int) (id : String) (amt : Int) :
    (deposit s ts id amt).2.payments = (process_cashback s ts).payments := by
  cases e : alookup (process_cashback s ts).accounts id <;> simp [deposit, e]

/-- transfer leaves the payments of the materialized state unchanged. -/
theorem transfer_payments (s : State) (ts : Int) (src tgt : String) (amt : Int) :
    (transfer s ts src tgt amt).2.payments = (process_cashback s ts).payments := by
  cases e1 : alookup (process_cashback s ts).accounts src with
  | none => cases e2 : alookup (process_cashback s ts).accounts tgt <;> simp [transfer, e1, e2]
  | some hs =>
    cases e2 : alookup (process_cashback s ts).accounts tgt with
    | none => simp [transfer, e1, e2]
    | some ht =>
      by_cases hne : src = tgt
      · simp [transfer, e1, e2, hne]
      · by_cases hlt : lastBal hs < amt <;> simp [transfer, e1, e2, hne, hlt]

/-- get_payment_status leaves the payments of the materialized state
unchanged. -/
theorem status_payments (s : State) (ts : Int) (id pid : String) :
    (get_payment_status s ts id pid).2.payments = (process_cashback s ts).payments := by
  cases e1 : alookup (process_cashback s ts).accounts id with
  | none => simp [get_payment_status, e1]
  | some h =>
    cases e2 : alookup (process_cashback s ts).payments pid with
    | none => simp [get_payment_status, e1, e2]
    | some p =>
      by_cases hne : id ≠ p.account
      · simp [get_payment_status, e1, e2, hne]
      · by_cases hp : p.status <;> simp [get_payment_status, e1, e2, hne, hp]

/-- get_balance leaves the payments of the materialized state unchanged. -/
theorem get_balance_payments (s : State) (ts : Int) (id : String) (t : Int) :
    (get_balance s ts id t).2.payments = (process_cashback s ts).payments := by
  cases e1 : alookup (process_cashback s ts).accounts id with
  | none =>
    cases e2 : alookup (process_cashback s ts).merged_accounts id with
    | none => simp [get_balance, e1, e2]
    | some nid =>
      cases e3 : resolveChain (process_cashback s ts) id nid
          ((process_cashback s ts).merged_accounts.length + 1) with
      | none => simp [get_balance, e1, e2, e3]
      | some pr =>
        obtain ⟨aid, nid2⟩ := pr
        cases e4 : (((alookup (process_cashback s ts).accounts nid2).getD []).filter
            (fun e => e.kind = "Merged Account with " ++ aid)).head? with
        | none => simp [get_balance, e1, e2, e3, e4]
        | some m =>
          by_cases hlt : t < m.ts <;> simp [get_balance, e1, e2, e3, e4, hlt]
  | some h =>
    cases e5 : (sortEntries h).head? with
    | none => simp [get_balance, e1, e5]
    | some e0 =>
      by_cases hlt : t < e0.ts <;> simp [get_balance, e1, e5, hlt]

/-- Beneficiary redirection keeps every key. -/
theorem redirect_map_fst (l : List (String × Payment)) (a1 a2 : String) :
    ((l.map (fun kv =>
        if kv.2.account = a2 then (kv.1, { kv.2 with account := a1 }) else kv)).map
      Prod.fst) = l.map Prod.fst := by
  induction l with
  | nil => rfl
  | cons kv rest ih => by_cases h : kv.2.account = a2 <;> simp [h, ih]

/-- merge_accounts keeps the key sequence of the payments dictionary. -/
theorem merge_payments_fst (s : State) (ts : Int) (a1 a2 : String) :
    (merge_accounts s ts a1 a2).2.payments.map Prod.fst = s.payments.map Prod.fst := by
  cases e1 : alookup s.accounts a1 with
  | none => cases e2 : alookup s.accounts a2 <;> simp [merge_accounts, e1, e2]
  | some h1 =>
    cases e2 : alookup s.accounts a2 with
    | none => simp [merge_accounts, e1, e2]
    | some h2 =>
      by_cases hne : a1 = a2
      · simp [merge_accounts, e1, e2, hne]
      · simp only [merge_accounts, e1, e2, if_neg hne]
        exact redirect_map_fst s.payments a1 a2

/-- The identifiers of k+1 payments are those of k payments plus the next. -/
theorem canonicalIds_succ (k : Nat) :
    canonicalIds (k + 1) = canonicalIds k ++ [paymentId (k + 1)] := by
  unfold canonicalIds
  rw [List.range_succ k]
  simp

/-- On a state with canonical payment keys, a successful pay appends a fresh
key and so grows the dictionary by exactly one; a rejected pay leaves it
as materialization left it. -/
theorem pay_length_good (s : State) (ts : Int) (id : String) (amt : Int)
    (hg : goodKeys s) :
    ((pay s ts id amt).1.isSome = true →
      (pay s ts id amt).2.payments.length = s.payments.length + 1 ∧
      goodKeys (pay s ts id amt).2) ∧
    ((pay s ts id amt).1 = none →
      (pay s ts id amt).2.payments.length = s.payments.length ∧
      goodKeys (pay s ts id amt).2) := by
  have hg1 : goodKeys (process_cashback s ts) := goodKeys_pc s ts hg
  have hlen1 : (process_cashback s ts).payments.length = s.payments.length :=
    pc_payments_length s ts
  cases e : alookup (process_cashback s ts).accounts id with
  | none =>
    constructor
    · intro hs
      simp [pay, e] at hs
    · intro _
      simp only [pay, e]
      exact ⟨hlen1, hg1⟩
  | some h =>
    by_cases hlt : lastBal h < amt
    · constructor
      · intro hs
        simp [pay, e, hlt] at hs
      · intro _
        simp only [pay, e, if_pos hlt]
        exact ⟨hlen1, hg1⟩
    · have hfresh : paymentId ((process_cashback s ts).payments.length + 1)
          ∉ (process_cashback s ts).payments.map Prod.fst := by
        rw [hg1]
        exact paymentId_fresh _
      have hnone : alookup (process_cashback s ts).payments
          (paymentId ((process_cashback s ts).payments.length + 1)) = none :=
        alookup_eq_none_of_not_mem _ _ hfresh
      have happ := aset_append_of_none (process_cashback s ts).payments
        (paymentId ((process_cashback s ts).payments.length + 1))
        ⟨id, ts + 86400000, Int.fdiv (amt * 2) 100, false⟩ hnone
      constructor
      · intro _
        simp only [pay, e, if_neg hlt]
        constructor
        · show (aset (process_cashback s ts).payments
              (paymentId ((process_cashback s ts).payments.length + 1))
              ⟨id, ts + 86400000, Int.fdiv (amt * 2) 100, false⟩).length
            = s.payments.length + 1
          rw [happ]
          simp [hlen1]
        · show (aset (process_cashback s ts).payments
              (paymentId ((process_cashback s ts).payments.length + 1))
              ⟨id, ts + 86400000, Int.fdiv (amt * 2) 100, false⟩).map Prod.fst
            = canonicalIds (aset (process_cashback s ts).payments
              (paymentId ((process_cashback s ts).payments.length + 1))
              ⟨id, ts + 86400000, Int.fdiv (amt * 2) 100, false⟩).length
          rw [happ]
          simp only [List.map_append, List.length_append, List.map_cons, List.map_nil,
            List.length_cons, List.length_nil]
          rw [hg1]
          rw [show (process_cashback s ts).payments.length + (0 + 1)
              = (process_cashback s ts).payments.length + 1 by omega]
          rw [canonicalIds_succ]
      · intro hnone2
        simp [pay, e, hlt] at hnone2
  
end Banking

namespace Banking

/-- Every public call preserves the canonical-keys invariant. -/
theorem applyOp_goodKeys (s : State) (op : Op) (h : goodKeys s) :
    goodKeys (applyOp s op) := by
  cases op with
  | createAccount ts id =>
    unfold goodKeys
    rw [show (applyOp s (Op.createAccount ts id)).payments = s.payments from
      create_account_payments s ts id]
    exact h
  | depositOp ts id amt =>
    unfold goodKeys
    rw [show (applyOp s (Op.depositOp ts id amt)).payments
        = (process_cashback s ts).payments from deposit_payments s ts id amt]
    exact goodKeys_pc s ts h
  | transferOp ts src tgt amt =>
    unfold goodKeys
    rw [show (applyOp s (Op.transferOp ts src tgt amt)).payments
        = (process_cashback s ts).payments from transfer_payments s ts src tgt amt]
    exact goodKeys_pc s ts h
  | topSpendersOp ts n => exact h
  | payOp ts id amt =>
    cases e : (pay s ts id amt).1 with
    | none => exact ((pay_length_good s ts id amt h).2 e).2
    | some r => exact ((pay_length_good s ts id amt h).1 (by simp [e])).2
  | paymentStatusOp ts id pid =>
    unfold goodKeys
    rw [show (applyOp s (Op.paymentStatusOp ts id pid)).payments
        = (process_cashback s ts).payments from status_payments s ts id pid]
    exact goodKeys_pc s ts h
  | mergeOp ts a1 a2 =>
    unfold goodKeys
    have hf := merge_payments_fst s ts a1 a2
    have hl : (merge_accounts s ts a1 a2).2.payments.length = s.payments.length := by
      have := congrArg List.length hf
      simpa using this
    show (merge_accounts s ts a1 a2).2.payments.map Prod.fst
      = canonicalIds (merge_accounts s ts a1 a2).2.payments.length
    rw [hf, hl]
    exact h
  | balanceOp ts id t =>
    unfold goodKeys
    rw [show (applyOp s (Op.balanceOp ts id t)).payments
        = (process_cashback s ts).payments from get_balance_payments s ts id t]
    exact goodKeys_pc s ts h

/-- No call other than pay changes the number of stored payments. -/
theorem applyOp_length_nonpay (s : State) (op : Op) (hop : op.isPay = false) :
    (applyOp s op).payments.length = s.payments.length := by
  cases op with
  | createAccount ts id => rw [show (applyOp s (Op.createAccount ts id)).payments
      = s.payments from create_account_payments s ts id]
  | depositOp ts id amt =>
    rw [show (applyOp s (Op.depositOp ts id amt)).payments
        = (process_cashback s ts).payments from deposit_payments s ts id amt]
    exact pc_payments_length s ts
  | transferOp ts src tgt amt =>
    rw [show (applyOp s (Op.transferOp ts src tgt amt)).payments
        = (process_cashback s ts).payments from transfer_payments s ts src tgt amt]
    exact pc_payments_length s ts
  | topSpendersOp ts n => rfl
  | payOp ts id amt => simp [Op.isPay] at hop
  | paymentStatusOp ts id pid =>
    rw [show (applyOp s (Op.paymentStatusOp ts id pid)).payments
        = (process_cashback s ts).payments from status_payments s ts id pid]
    exact pc_payments_length s ts
  | mergeOp ts a1 a2 =>
    have := congrArg List.length (merge_payments_fst s ts a1 a2)
    simpa using this
  | balanceOp ts id t =>
    rw [show (applyOp s (Op.balanceOp ts id t)).payments
        = (process_cashback s ts).payments from get_balance_payments s ts id t]
    exact pc_payments_length s ts

/-- A call that is not a pay reports no ordinal. -/
theorem payOrd_none_of_not_pay (s : State) (op : Op) (hop : op.isPay = false) :
    payOrd s op = none := by
  cases op <;> first | rfl | simp [Op.isPay] at hop

/-- Along any run from a canonical-keys state, the ordinals of the
successful pays are consecutive, starting right after the stored count. -/
theorem runPays_spec (ops : List Op) :
    ∀ s : State, goodKeys s →
      goodKeys (runPays s ops).1 ∧
      s.payments.length ≤ (runPays s ops).1.payments.length ∧
      (runPays s ops).2 = List.range' (s.payments.length + 1)
        ((runPays s ops).1.payments.length - s.payments.length) := by
  induction ops with
  | nil =>
    intro s h
    refine ⟨h, le_rfl, ?_⟩
    show ([] : List Nat)
      = List.range' (s.payments.length + 1) (s.payments.length - s.payments.length)
    rw [Nat.sub_self]
    rfl
  | cons op rest ih =>
    intro s h
    have h1 : goodKeys (applyOp s op) := applyOp_goodKeys s op h
    obtain ⟨hg, hle, hords⟩ := ih (applyOp s op) h1
    by_cases hp : op.isPay = true
    · cases op with
      | payOp ts id amt =>
        cases e : (pay s ts id amt).1 with
        | none =>
          have hlen : (applyOp s (Op.payOp ts id amt)).payments.length
              = s.payments.length := ((pay_length_good s ts id amt h).2 e).1
          have hord : payOrd s (Op.payOp ts id amt) = none := by
            simp [payOrd, e]
          simp only [runPays, hord]
          rw [hlen] at hords hle
          exact ⟨hg, hle, hords⟩
        | some r =>
          have hlen : (applyOp s (Op.payOp ts id amt)).payments.length
              = s.payments.length + 1 :=
            ((pay_length_good s ts id amt h).1 (by simp [e])).1
          have hord : payOrd s (Op.payOp ts id amt)
              = some (s.payments.length + 1) := by
            simp [payOrd, e]
          simp only [runPays, hord]
          refine ⟨hg, by omega, ?_⟩
          rw [hords, hlen]
          have hfinal : (runPays (applyOp s (Op.payOp ts id amt)) rest).1.payments.length
              - s.payments.length
              = ((runPays (applyOp s (Op.payOp ts id amt)) rest).1.payments.length
                - (s.payments.length + 1)) + 1 := by
            rw [hlen] at hle
            omega
          rw [hfinal, List.range'_succ]
      | createAccount ts id => simp [Op.isPay] at hp
      | depositOp ts id amt => simp [Op.isPay] at hp
      | transferOp ts src tgt amt => simp [Op.isPay] at hp
      | topSpendersOp ts n => simp [Op.isPay] at hp
      | paymentStatusOp ts id pid => simp [Op.isPay] at hp
      | mergeOp ts a1 a2 => simp [Op.isPay] at hp
      | balanceOp ts id t => simp [Op.isPay] at hp
    · have hop : op.isPay = false := by simpa using hp
      have hord := payOrd_none_of_not_pay s op hop
      have hlen := applyOp_length_nonpay s op hop
      simp only [runPays, hord]
      rw [hlen] at hords hle
      exact ⟨hg, hle, hords⟩

/-- Claim C7: a successful pay decreases the account balance by the amount,
registers a pending cashback of floor(amount * 2 / 100) maturing exactly at
timestamp + 86400000, and returns the identifier built from the global
ordinal, which is the current payment count plus one; no other call changes
the payment count; and along any run from the initial state the ordinals of
the successful pays are exactly 1, 2, 3, ... with none reused. -/
theorem claim7_pay_contract :
    (∀ (s : State) (ts : Int) (id : String) (amt : Int) (h : List Entry),
      alookup (process_cashback s ts).accounts id = some h → amt ≤ lastBal h →
      (pay s ts id amt).1 = some (paymentId (s.payments.length + 1)) ∧
      alookup (pay s ts id amt).2.accounts id
        = some (h ++ [⟨ts, "Pay", amt, lastBal h - amt, id⟩]) ∧
      alookup (pay s ts id amt).2.payments (paymentId (s.payments.length + 1))
        = some ⟨id, ts + 86400000, Int.fdiv (amt * 2) 100, false⟩) ∧
    (∀ (s : State) (op : Op), op.isPay = false →
      (applyOp s op).payments.length = s.payments.length) ∧
    (∀ ops : List Op,
      (runPays initState ops).2
        = List.range' 1 ((runPays initState ops).1.payments.length)) := by
  refine ⟨?_, applyOp_length_nonpay, ?_⟩
  · intro s ts id amt h hl hge
    have hlt : ¬ lastBal h < amt := by omega
    have hlen1 : (process_cashback s ts).payments.length = s.payments.length :=
      pc_payments_length s ts
    simp only [pay, hl, if_neg hlt]
    refine ⟨?_, ?_, ?_⟩
    · rw [hlen1]
      rfl
    · exact alookup_aset_self _ _ _
    · rw [show paymentId (s.payments.length + 1)
          = "payment" ++ Nat.repr ((process_cashback s ts).payments.length + 1) by
        rw [hlen1]; rfl]
      exact alookup_aset_self _ _ _
  · intro ops
    have h := (runPays_spec ops initState goodKeys_init).2.2
    simpa using h

/-- Witness for claim C7: the pay clause applied to the concrete funded
state, whose one stored payment makes the next ordinal 2. -/
theorem claim7_witness :
    (pay samplePayState 6 "A2" 100).1 = some "payment2" := by
  have h := (claim7_pay_contract.1 samplePayState 6 "A2" 100
    [⟨2, "Account Creation", 0, 0, "A2"⟩, ⟨4, "Deposit", 300, 300, "A2"⟩,
     ⟨5, "Pay", 100, 200, "A2"⟩] (by decide) (by decide)).1
  rw [h]
  decide

end Banking
